import Mathlib

/-!
Verification of the polariton (generalized Hopfield matrix) core of the
`legume` repository, file `src/legume/pol/pol.py` (class `HopfieldPol`).

The embedding works per k-point: the index `kind` selecting the k-point is
dropped and every provider quantity is the slice at one fixed k-point.
Matrices are complex matrices over `Fin`/sum index types; the horizontal
stacking of per-well coupling blocks is represented by the product index
`Fin (Q+1) × Fin M` (well-major order, matching `np.hstack` over the list of
blocks), and the vertical/horizontal stacking of the four block rows by
`Matrix.fromBlocks` applied twice.  The external dense eigensolver
(`bd.eig`, LAPACK) is modelled by the multiset of roots of the
characteristic polynomial over `ℂ`, which is exactly what it computes in
exact arithmetic.  Floating point numbers are modelled as real numbers.
-/

namespace LegumePol

open Matrix Polynomial

/-- Physical constants consumed from `legume.constants` (`cs.hbar`, `cs.e`,
`cs.m_e`, `cs.epsilon_0`, `cs.h_eV_Hz`, `cs.c`).  Their numerical values
never matter for the verified properties, so they are abstract reals. -/
structure PolConsts where
  hbar : ℝ
  e : ℝ
  m_e : ℝ
  eps0 : ℝ
  h_eV_Hz : ℝ
  c : ℝ

/-- Per k-point data of one excitonic provider (`ExcitonSchroedEq`) as
consumed by `HopfieldPol`: lattice constant `a`, vertical position `z`,
oscillator-strength components `osc_str` (kept complex, the code casts them
to real with `.astype(float)`), the `M` complex excitonic energies
`eners[kind, :]`, and the Fourier components `ft_wavef_xy(kind, mind=ν)` of
each excitonic wavefunction over the `Ng` reciprocal vectors. -/
structure ExcitonData (M Ng NC : ℕ) where
  a : ℝ
  z : ℝ
  osc_str : Fin NC → ℂ
  eners : Fin M → ℂ
  ft_wavef : Fin M → Fin Ng → ℂ

/-- Symmetry setting of the guided-mode provider, the lowercased value of
`gme.symmetry` tested in `_construct_Hopfield`; any other string leaves the
photonic diagonal block zero, represented by `other`. -/
inductive GmeSymmetry
  | none_
  | both
  | odd
  | even
  | other

/-- Per k-point data of the photonic provider (`GuidedModeExp`): the
symmetry flag, the dimensionless frequencies (with imaginary parts) of the
`N` photonic bands for each symmetry sector, and the Fourier components
`ft_field_xy("E", kind, mind=n, z)` of the electric field of band `n` at
height `z`, indexed by field component and reciprocal vector. -/
structure GmeData (N Ng NC : ℕ) where
  symmetry : GmeSymmetry
  freqs : Fin N → ℝ
  freqs_im : Fin N → ℝ
  freqs_odd : Fin N → ℝ
  freqs_im_odd : Fin N → ℝ
  freqs_even : Fin N → ℝ
  freqs_im_even : Fin N → ℝ
  ft_field_E : Fin N → ℝ → Fin NC → Fin Ng → ℂ

variable {N M Q Ng NC : ℕ}

/-- Prefactor of the coupling block in `_calculate_C_D`:
`-1j * np.sqrt(cs.hbar**2 * cs.e**2 / (4 * cs.m_e * cs.epsilon_0)) / cs.e / np.sqrt(self.a)`,
where `self.a` is the ambient lattice constant set in `_construct_Hopfield`. -/
noncomputable def pref (K : PolConsts) (a : ℝ) : ℂ :=
  -Complex.I * (Real.sqrt (K.hbar ^ 2 * K.e ^ 2 / (4 * K.m_e * K.eps0)) : ℝ) /
    (K.e : ℝ) / (Real.sqrt a : ℝ)

/-- Coupling block `C` of `_calculate_C_D` for one well: entry `(n, ν)` is
`pref * np.sum(np.dot(np.sqrt(exc.osc_str.astype(float)), E_comp) * np.conjugate(W_comp))`
with `E_comp = gme.ft_field_xy("E", kind, mind=n, z=exc.z)` and
`W_comp = exc.ft_wavef_xy(kind, mind=ν)`; the `np.dot` contracts the field
component index, the outer `np.sum` the reciprocal-vector index. -/
noncomputable def calcC (K : PolConsts) (a : ℝ) (gme : GmeData N Ng NC)
    (exc : ExcitonData M Ng NC) : Matrix (Fin N) (Fin M) ℂ :=
  Matrix.of fun n ν =>
    pref K a *
      ∑ g, (∑ i, ((Real.sqrt ((exc.osc_str i).re) : ℝ) : ℂ) *
        gme.ft_field_E n exc.z i g) * (starRingEnd ℂ) (exc.ft_wavef ν g)

/-- Both outputs of `_calculate_C_D`: the coupling block `C` and the
self-energy contribution `D` of one well, with
`D[n₁, n₂] = np.sum(np.conjugate(C[n₁, :]) * C[n₂, :] / np.real(exc.eners[kind, :]))`. -/
noncomputable def calculate_C_D (K : PolConsts) (a : ℝ) (gme : GmeData N Ng NC)
    (exc : ExcitonData M Ng NC) :
    Matrix (Fin N) (Fin M) ℂ × Matrix (Fin N) (Fin N) ℂ :=
  let C := calcC K a gme exc
  (C, Matrix.of fun n₁ n₂ =>
    ∑ ν, (starRingEnd ℂ) (C n₁ ν) * C n₂ ν / (((exc.eners ν).re : ℝ) : ℂ))

/-- Self-energy contribution of one well, the second output of
`_calculate_C_D`. -/
noncomputable def calcD (K : PolConsts) (a : ℝ) (gme : GmeData N Ng NC)
    (exc : ExcitonData M Ng NC) : Matrix (Fin N) (Fin N) ℂ :=
  (calculate_C_D K a gme exc).2

/-- Diagonal entry of the photonic block filled by `np.fill_diagonal` in
`_construct_Hopfield`: `freqs * conv_fact + 1j * freqs_im * conv_fact` of
the symmetry sector selected by `gme.symmetry`; an unrecognised symmetry
string leaves the block zero. -/
noncomputable def barePhotE (K : PolConsts) (a : ℝ) (gme : GmeData N Ng NC) :
    Fin N → ℂ :=
  let conv_fact : ℝ := K.h_eV_Hz * K.c / a
  match gme.symmetry with
  | .none_ | .both => fun n =>
      ((gme.freqs n * conv_fact : ℝ) : ℂ) +
        Complex.I * ((gme.freqs_im n * conv_fact : ℝ) : ℂ)
  | .odd => fun n =>
      ((gme.freqs_odd n * conv_fact : ℝ) : ℂ) +
        Complex.I * ((gme.freqs_im_odd n * conv_fact : ℝ) : ℂ)
  | .even => fun n =>
      ((gme.freqs_even n * conv_fact : ℝ) : ℂ) +
        Complex.I * ((gme.freqs_im_even n * conv_fact : ℝ) : ℂ)
  | .other => fun _ => 0

/-- Entrywise real part, used for `bd.real(D_final_block)` (which numpy
re-embeds into the complex matrix `diag_phot` on addition). -/
def reMat {ι κ : Type*} (A : Matrix ι κ ℂ) : Matrix ι κ ℂ :=
  A.map fun z => ((z.re : ℝ) : ℂ)

/-- Horizontal concatenation `bd.hstack([c for c in C_blocks])` of the per-well
coupling blocks, columns in well-major order. -/
noncomputable def C_total (K : PolConsts) (gme : GmeData N Ng NC)
    (excs : Fin (Q + 1) → ExcitonData M Ng NC) :
    Matrix (Fin N) (Fin (Q + 1) × Fin M) ℂ :=
  Matrix.of fun n qv => calcC K ((excs 0).a) gme (excs qv.1) n qv.2

/-- Summed self-energy block `D_final_block = Σ_wells D`. -/
noncomputable def D_final_block (K : PolConsts) (gme : GmeData N Ng NC)
    (excs : Fin (Q + 1) → ExcitonData M Ng NC) : Matrix (Fin N) (Fin N) ℂ :=
  ∑ q, calcD K ((excs 0).a) gme (excs q)

/-- The matrix named `D` in the block rows of `_construct_Hopfield`: the
loop variable left over from `for ind_ex, exc_sch in enumerate(self.exc_list)`,
i.e. the self-energy contribution of the LAST well only (not the sum
`D_final_block`). -/
noncomputable def D_loop_leftover (K : PolConsts) (gme : GmeData N Ng NC)
    (excs : Fin (Q + 1) → ExcitonData M Ng NC) : Matrix (Fin N) (Fin N) ℂ :=
  calcD K ((excs 0).a) gme (excs (Fin.last Q))

/-- Diagonal excitonic block: `np.fill_diagonal(diag_exc, exc_el)` with
`exc_el` the concatenation of all wells' excitonic energies. -/
def diag_exc_block (excs : Fin (Q + 1) → ExcitonData M Ng NC) :
    Matrix (Fin (Q + 1) × Fin M) (Fin (Q + 1) × Fin M) ℂ :=
  Matrix.diagonal fun qv => (excs qv.1).eners qv.2

/-- The four-block-row structure shared by the Hopfield matrix: rows
`[P, -i·Ct, -2·Dl, -i·Ct]`, `[i·Ctd, X, -i·Ctd, 0]`, `[2·Dl, -i·Ct, -P, -i·Ct]`,
`[-i·Ctd, 0, i·Ctd, -X]`, as the `np.hstack`/`np.vstack` of
`_construct_Hopfield` produces them. -/
def hopfieldShape {m n : Type*} (P : Matrix m m ℂ) (Ct : Matrix m n ℂ)
    (Ctd : Matrix n m ℂ) (X : Matrix n n ℂ) (Dl : Matrix m m ℂ) :
    Matrix ((m ⊕ n) ⊕ (m ⊕ n)) ((m ⊕ n) ⊕ (m ⊕ n)) ℂ :=
  Matrix.fromBlocks
    (Matrix.fromBlocks P ((-Complex.I) • Ct) (Complex.I • Ctd) X)
    (Matrix.fromBlocks ((-2 : ℂ) • Dl) ((-Complex.I) • Ct) ((-Complex.I) • Ctd) 0)
    (Matrix.fromBlocks ((2 : ℂ) • Dl) ((-Complex.I) • Ct) ((-Complex.I) • Ctd) 0)
    (Matrix.fromBlocks (-P) ((-Complex.I) • Ct) (Complex.I • Ctd) (-X))

/-- Index type of the assembled Hopfield matrix: photonic then excitonic
rows, doubled into the positive and the mirrored branch. -/
abbrev HopIx (N M Q : ℕ) :=
  (Fin N ⊕ Fin (Q + 1) × Fin M) ⊕ (Fin N ⊕ Fin (Q + 1) × Fin M)

/-- The matrix `M` returned by `_construct_Hopfield` for one k-point, with
at least one quantum well (`num_QWs = Q + 1`): `self.a` is the first well's
lattice constant, `diag_phot` gets `2 * bd.real(D_final_block)` added, and
the `±2·D` blocks use the loop-leftover `D` of the last well. -/
noncomputable def construct_Hopfield (K : PolConsts) (gme : GmeData N Ng NC)
    (excs : Fin (Q + 1) → ExcitonData M Ng NC) :
    Matrix (HopIx N M Q) (HopIx N M Q) ℂ :=
  let a := (excs 0).a
  let diag_phot := Matrix.diagonal (barePhotE K a gme) +
    (2 : ℂ) • reMat (D_final_block K gme excs)
  let Ct := C_total K gme excs
  hopfieldShape diag_phot Ct Ct.conjTranspose (diag_exc_block excs)
    (D_loop_leftover K gme excs)

/-- Photonic fraction of one band in `_calculate_fraction`: the summed
squared moduli of the eigenvector rows `[0, N_max)` and
`[N_max + M_max*num_QWs, 2*N_max + M_max*num_QWs)`, with `MQ` standing for
`M_max * num_QWs`. -/
noncomputable def frac_ph (Nmax MQ : ℕ) (v : ℕ → ℂ) : ℝ :=
  (∑ i ∈ Finset.Ico 0 Nmax, Complex.abs (v i) ^ 2) +
    ∑ i ∈ Finset.Ico (Nmax + MQ) (2 * Nmax + MQ), Complex.abs (v i) ^ 2

/-- Excitonic fraction of one band in `_calculate_fraction`: rows
`[N_max, N_max + MQ)` and the trailing slice `[2*N_max + MQ:]` of an
eigenvector of length `L`. -/
noncomputable def frac_ex (Nmax MQ L : ℕ) (v : ℕ → ℂ) : ℝ :=
  (∑ i ∈ Finset.Ico Nmax (Nmax + MQ), Complex.abs (v i) ^ 2) +
    ∑ i ∈ Finset.Ico (2 * Nmax + MQ) L, Complex.abs (v i) ^ 2

/-- The lexicographic order on complex numbers by (real part, imaginary
part); `np.argsort` on a complex array sorts this way. -/
def cLe (z w : ℂ) : Prop :=
  z.re < w.re ∨ (z.re = w.re ∧ z.im ≤ w.im)

noncomputable instance : DecidableRel cLe := fun _ _ =>
  instDecidableOr

/-- Positive-branch filter, sort and truncation of `HopfieldPol.run`
(lines after the eigendecomposition): keep the eigenpairs with
`bd.real(ener1) >= 0`, sort ascending, retain `numeig // 2 - 1` of them.
`es` is the eigenvalue/eigenvector list delivered by the external dense
eigensolver. -/
noncomputable def branchRetain {V : Type*} (size : ℕ) (es : List (ℂ × V)) :
    List (ℂ × V) :=
  ((es.filter fun p => decide (0 ≤ p.1.re)).insertionSort
      fun p q => cLe p.1 q.1).take (size / 2 - 1)

/-- Per-k-point outputs appended by `run`: real energies, imaginary parts,
eigenvectors, excitonic fractions and photonic fractions of the retained
bands, in sorted order.  The eigenvectors delivered by the eigensolver are
flat columns `ℕ → ℂ`, as `_calculate_fraction` slices them. -/
noncomputable def runPerK (N M Q : ℕ) (es : List (ℂ × (ℕ → ℂ))) :
    List ℝ × List ℝ × List (ℕ → ℂ) × List ℝ × List ℝ :=
  let numeig := Fintype.card (HopIx N M Q)
  let r := branchRetain numeig es
  (r.map fun p => p.1.re, r.map fun p => p.1.im, r.map Prod.snd,
    r.map fun p => frac_ex N (M * (Q + 1)) (2 * (N + M * (Q + 1))) p.2,
    r.map fun p => frac_ph N (M * (Q + 1)) p.2)

/-- Eigenvalue step of `run`: `bd.eig(mat + bd.eye(...))` followed by
subtracting `bd.ones(...)`, modelled on the characteristic-polynomial root
multiset. -/
noncomputable def eigShiftUnshift {ι : Type*} [Fintype ι] [DecidableEq ι]
    (A : Matrix ι ι ℂ) : Multiset ℂ :=
  ((A + 1).charpoly.roots).map fun z => z - 1

/-- Data of one entry of `exc_list` as consumed by the prelude of `run`. -/
structure ExcRunData where
  numeig_ex : ℕ

/-- Prelude of `run` (lines 273-281 of `pol.py`): `num_QWs` is the length
of `exc_list`, `N_max` the photonic eigenvalue count, and `M_max` is read
from `exc_list[0]`, which raises `IndexError` when no quantum well is
configured; `none` models that exception.  Only on `some` does `run` reach
the per-k-point loop. -/
def runPrelude (excList : List ExcRunData) (gmeNumeig : ℕ) :
    Option (ℕ × ℕ × ℕ) :=
  let num_QWs := excList.length
  let N_max := gmeNumeig
  match excList.head? with
  | none => none
  | some e => some (num_QWs, N_max, e.numeig_ex)

/-- Layer-index loop of `_z_to_lind`: starting from `lind` with current
upper boundary `zmax lind`, increment while `z > z_max and lind < N_layers`.
The fuel argument bounds the iteration count; `_z_to_lind` supplies fuel
`N`, which the guard `lind < N` makes sufficient. -/
def zLoop {α : Type*} [LinearOrder α] (zmax : ℕ → α) (z : α) (N : ℕ) :
    ℕ → ℕ → ℕ
  | lind, 0 => lind
  | lind, fuel + 1 =>
    if zmax lind < z ∧ lind < N then zLoop zmax z N (lind + 1) fuel else lind

/-- The method `_z_to_lind`: `zmax 0` is the lower cladding's `z_max`,
`zmax i` (for `1 ≤ i ≤ N`) is `phc.layers[i-1].z_max`, and `N` is
`N_layers`.  After the loop, `if z > z_max and lind == self.N_layers:
lind += 1` clamps an out-of-range `z` to one past the last layer. -/
def z_to_lind {α : Type*} [LinearOrder α] (zmax : ℕ → α) (z : α) (N : ℕ) : ℕ :=
  let lind := zLoop zmax z N 0 N
  if zmax lind < z ∧ lind = N then lind + 1 else lind

/-- Invariant of the `while` loop of `_z_to_lind`: started at `lind` with
enough fuel, the loop stops at the first index from `lind` on whose guard
`z > z_max and lind < N_layers` fails, and every index it passed had its
boundary strictly below `z`. -/
theorem zLoop_spec {α : Type*} [LinearOrder α] (zmax : ℕ → α) (z : α) (N : ℕ) :
    ∀ fuel lind, lind ≤ N → N ≤ lind + fuel →
      lind ≤ zLoop zmax z N lind fuel ∧ zLoop zmax z N lind fuel ≤ N ∧
      (∀ i, lind ≤ i → i < zLoop zmax z N lind fuel → zmax i < z) ∧
      ¬(zmax (zLoop zmax z N lind fuel) < z ∧ zLoop zmax z N lind fuel < N)
  | 0, lind, h1, h2 => by
    have hl : zLoop zmax z N lind 0 = lind := rfl
    rw [hl]
    have : lind = N := le_antisymm h1 (by omega)
    exact ⟨le_refl _, h1, fun i hi hlt => absurd (lt_of_le_of_lt hi hlt)
      (lt_irrefl _), fun hc => absurd hc.2 (by omega)⟩
  | fuel + 1, lind, h1, h2 => by
    by_cases hc : zmax lind < z ∧ lind < N
    · rw [zLoop, if_pos hc]
      obtain ⟨ih1, ih2, ih3, ih4⟩ :=
        zLoop_spec zmax z N fuel (lind + 1) hc.2 (by omega)
      refine ⟨by omega, ih2, ?_, ih4⟩
      intro i hi hlt
      rcases Nat.eq_or_lt_of_le hi with h | h
      · exact h ▸ hc.1
      · exact ih3 i h hlt
    · rw [zLoop, if_neg hc]
      exact ⟨le_refl _, h1, fun i hi hlt => absurd (lt_of_le_of_lt hi hlt)
        (lt_irrefl _), hc⟩

/-- C6: for every vertical position `z`, the layer-index lookup
`_z_to_lind` terminates (it is a total function here) and returns, without
raising, the index of the first layer whose upper boundary is not exceeded
by `z`: every earlier boundary is strictly below `z`, and if the result is
a valid layer index then its boundary is not exceeded.  If `z` exceeds
every boundary the result is `N + 1`, one past the last layer index — a
silent clamp, not an error. -/
theorem C6_layer_lookup {α : Type*} [LinearOrder α] (zmax : ℕ → α) (z : α)
    (N : ℕ) :
    (∀ i, i < z_to_lind zmax z N → zmax i < z) ∧
    (z_to_lind zmax z N ≤ N → z ≤ zmax (z_to_lind zmax z N)) ∧
    z_to_lind zmax z N ≤ N + 1 ∧
    ((∀ i, i ≤ N → zmax i < z) → z_to_lind zmax z N = N + 1) := by
  obtain ⟨h1, h2, h3, h4⟩ :=
    zLoop_spec zmax z N N 0 (Nat.zero_le _) (by omega)
  set l := zLoop zmax z N 0 N with hl
  unfold z_to_lind
  rw [← hl]
  by_cases hc : zmax l < z ∧ l = N
  · rw [if_pos hc]
    refine ⟨?_, ?_, by omega, fun _ => by omega⟩
    · intro i hi
      rcases Nat.lt_or_ge i l with h | h
      · exact h3 i (Nat.zero_le _) h
      · have : i = l := by omega
        exact this ▸ hc.1
    · intro h
      omega
  · rw [if_neg hc]
    have hle : z ≤ zmax l := by
      rcases Nat.lt_or_ge l N with h | h
      · by_contra hzl
        exact h4 ⟨lt_of_not_le hzl, h⟩
      · have hN : l = N := by omega
        by_contra hzl
        exact hc ⟨lt_of_not_le hzl, hN⟩
    refine ⟨fun i hi => h3 i (Nat.zero_le _) hi, fun _ => hle, by omega, ?_⟩
    intro hall
    exact absurd hle (not_le_of_lt (hall l h2))

/-- Closed instance of `C6_layer_lookup`: boundaries `0,1,2,…` over `ℤ` and
`z = 2` with three layers; the hypothesis of the second conjunct is
discharged by evaluation. -/
theorem C6_layer_lookup_witness :
    (2 : ℤ) ≤ (fun i => (i : ℤ)) (z_to_lind (fun i => (i : ℤ)) 2 3) :=
  (C6_layer_lookup (fun i => (i : ℤ)) 2 3).2.1 (by decide)

/-- C4: the coupling block builder `_calculate_C_D` returns `C` with
`C[n, ν] = prefactor · Σ_g (Σ_components √(Re osc_str) · E_component) · conj(W_component)`
where the prefactor is `−i·√(ħ²e²/(4·mₑ·ε₀))/e/√a` and the oscillator
strengths are cast to real before use, and returns `D` with
`D[n₁, n₂] = Σ_ν conj(C[n₁, ν]) · C[n₂, ν] / Re(exciton_energy[ν])`. -/
theorem C4_coupling_formulas (K : PolConsts) (a : ℝ) (gme : GmeData N Ng NC)
    (exc : ExcitonData M Ng NC) :
    (∀ n ν, (calculate_C_D K a gme exc).1 n ν =
      (-Complex.I *
          ((Real.sqrt (K.hbar ^ 2 * K.e ^ 2 / (4 * K.m_e * K.eps0)) : ℝ) : ℂ) /
          ((K.e : ℝ) : ℂ) / ((Real.sqrt a : ℝ) : ℂ)) *
        ∑ g, (∑ i, ((Real.sqrt ((exc.osc_str i).re) : ℝ) : ℂ) *
            gme.ft_field_E n exc.z i g) *
          (starRingEnd ℂ) (exc.ft_wavef ν g)) ∧
    (∀ n₁ n₂, (calculate_C_D K a gme exc).2 n₁ n₂ =
      ∑ ν, (starRingEnd ℂ) ((calculate_C_D K a gme exc).1 n₁ ν) *
        (calculate_C_D K a gme exc).1 n₂ ν / (((exc.eners ν).re : ℝ) : ℂ)) :=
  ⟨fun _ _ => rfl, fun _ _ => rfl⟩

/-- C9: for every eigenvector column `v`, the photonic fraction plus the
excitonic fraction computed by `_calculate_fraction` equals the sum of the
squared moduli of all `2·(N_max + M_max·num_QWs)` entries, because the four
row ranges partition the rows; hence the fractions sum to exactly `1` iff
the column has unit 2-norm. -/
theorem C9_fraction_partition (Nmax MQ : ℕ) (v : ℕ → ℂ) :
    frac_ph Nmax MQ v + frac_ex Nmax MQ (2 * (Nmax + MQ)) v =
      (∑ i ∈ Finset.range (2 * (Nmax + MQ)), Complex.abs (v i) ^ 2) ∧
    (frac_ph Nmax MQ v + frac_ex Nmax MQ (2 * (Nmax + MQ)) v = 1 ↔
      (∑ i ∈ Finset.range (2 * (Nmax + MQ)), Complex.abs (v i) ^ 2) = 1) := by
  have key : frac_ph Nmax MQ v + frac_ex Nmax MQ (2 * (Nmax + MQ)) v =
      ∑ i ∈ Finset.range (2 * (Nmax + MQ)), Complex.abs (v i) ^ 2 := by
    unfold frac_ph frac_ex
    rw [Finset.range_eq_Ico]
    have e1 := Finset.sum_Ico_consecutive (fun i => Complex.abs (v i) ^ 2)
      (show 0 ≤ Nmax by omega) (show Nmax ≤ 2 * (Nmax + MQ) by omega)
    have e2 := Finset.sum_Ico_consecutive (fun i => Complex.abs (v i) ^ 2)
      (show Nmax ≤ Nmax + MQ by omega)
      (show Nmax + MQ ≤ 2 * (Nmax + MQ) by omega)
    have e3 := Finset.sum_Ico_consecutive (fun i => Complex.abs (v i) ^ 2)
      (show Nmax + MQ ≤ 2 * Nmax + MQ by omega)
      (show 2 * Nmax + MQ ≤ 2 * (Nmax + MQ) by omega)
    linarith
  exact ⟨key, by rw [key]⟩

/-- C8 counterexample: with no quantum wells configured, the prelude of
`run` does not degrade gracefully to the bare photonic energies — reading
`exc_list[0]` raises (modelled by `none`), so no energies or fractions are
produced at all. -/
theorem C8_counterexample : runPrelude [] 3 = none := rfl

/-- C8 amended: for every photonic eigenvalue count, `run` with
`num_QWs = 0` fails when it retrieves `M_max` from the first excitonic
provider of the empty list (`IndexError`), instead of returning bare
photonic energies with photonic fraction `1` and excitonic fraction `0`. -/
theorem C8_empty_qw_fails (gmeNumeig : ℕ) : runPrelude [] gmeNumeig = none :=
  rfl

/-- Coupling blocks depend on the exciton provider only through `z`,
`osc_str` and `ft_wavef` (the ambient lattice constant `a` is a separate
argument, set once from the first provider). -/
theorem calcC_congr (K : PolConsts) (a : ℝ) (gme : GmeData N Ng NC)
    {exc exc' : ExcitonData M Ng NC} (hz : exc.z = exc'.z)
    (hos : exc.osc_str = exc'.osc_str) (hw : exc.ft_wavef = exc'.ft_wavef) :
    calcC K a gme exc = calcC K a gme exc' := by
  unfold calcC
  rw [hz, hos, hw]

/-- Self-energy contributions additionally depend on the excitonic
energies, but never on the provider's own lattice constant. -/
theorem calcD_congr (K : PolConsts) (a : ℝ) (gme : GmeData N Ng NC)
    {exc exc' : ExcitonData M Ng NC} (hz : exc.z = exc'.z)
    (hos : exc.osc_str = exc'.osc_str) (he : exc.eners = exc'.eners)
    (hw : exc.ft_wavef = exc'.ft_wavef) :
    calcD K a gme exc = calcD K a gme exc' := by
  unfold calcD calculate_C_D calcC
  rw [hz, hos, hw, he]

/-- C10: the lattice constant entering the coupling prefactor and the
frequency-to-eV conversion is the first provider's `a` for all wells: two
provider families that agree on the first well's lattice constant and on
every well's `z`, oscillator strengths, energies and wavefunctions produce
the same Hopfield matrix, whatever the other wells' lattice constants are. -/
theorem C10_first_lattice_constant (K : PolConsts) (gme : GmeData N Ng NC)
    (excs excs' : Fin (Q + 1) → ExcitonData M Ng NC)
    (ha : (excs 0).a = (excs' 0).a)
    (hz : ∀ q, (excs q).z = (excs' q).z)
    (hos : ∀ q, (excs q).osc_str = (excs' q).osc_str)
    (he : ∀ q, (excs q).eners = (excs' q).eners)
    (hw : ∀ q, (excs q).ft_wavef = (excs' q).ft_wavef) :
    construct_Hopfield K gme excs = construct_Hopfield K gme excs' := by
  have hC : ∀ q, calcC K ((excs 0).a) gme (excs q) =
      calcC K ((excs' 0).a) gme (excs' q) := by
    intro q
    rw [← ha]
    exact calcC_congr K _ gme (hz q) (hos q) (hw q)
  have hD : ∀ q, calcD K ((excs 0).a) gme (excs q) =
      calcD K ((excs' 0).a) gme (excs' q) := by
    intro q
    rw [← ha]
    exact calcD_congr K _ gme (hz q) (hos q) (he q) (hw q)
  have hCt : C_total K gme excs = C_total K gme excs' := by
    ext n qv
    exact congrFun (congrFun (hC qv.1) n) qv.2
  have hDf : D_final_block K gme excs = D_final_block K gme excs' := by
    unfold D_final_block
    exact Finset.sum_congr rfl fun q _ => hD q
  have hDl : D_loop_leftover K gme excs = D_loop_leftover K gme excs' :=
    hD (Fin.last Q)
  have hX : diag_exc_block excs = diag_exc_block excs' :=
    congrArg Matrix.diagonal (funext fun qv => congrFun (he qv.1) qv.2)
  unfold construct_Hopfield
  rw [ha, hCt, hDf, hDl, hX]

/-- The `[0, 2N]` block (block-row 0, block-column 2) of the assembled
matrix is `-2` times the loop-leftover self-energy block. -/
theorem hop_block_02 (K : PolConsts) (gme : GmeData N Ng NC)
    (excs : Fin (Q + 1) → ExcitonData M Ng NC) :
    (construct_Hopfield K gme excs).toBlocks₁₂.toBlocks₁₁ =
      (-2 : ℂ) • D_loop_leftover K gme excs := by
  unfold construct_Hopfield hopfieldShape
  simp [Matrix.toBlocks_fromBlocks₁₂, Matrix.toBlocks_fromBlocks₁₁]

/-- The `[2N, 0]` block (block-row 2, block-column 0) of the assembled
matrix is `+2` times the loop-leftover self-energy block. -/
theorem hop_block_20 (K : PolConsts) (gme : GmeData N Ng NC)
    (excs : Fin (Q + 1) → ExcitonData M Ng NC) :
    (construct_Hopfield K gme excs).toBlocks₂₁.toBlocks₁₁ =
      (2 : ℂ) • D_loop_leftover K gme excs := by
  unfold construct_Hopfield hopfieldShape
  simp [Matrix.toBlocks_fromBlocks₂₁, Matrix.toBlocks_fromBlocks₁₁]

/-- Size of the assembled Hopfield matrix. -/
theorem hop_card (N M Q : ℕ) :
    Fintype.card (HopIx N M Q) = 2 * (N + M * (Q + 1)) := by
  simp [Fintype.card_sum, Fintype.card_prod, Fintype.card_fin]
  ring

/-- C3 amended: the assembled matrix has size `2·(N_max + M_max·num_QWs)`,
but the block at `[0, 2N]` equals `−2·D` and the block at `[2N, 0]` equals
`+2·D` (with `D` the loop-leftover last-well self-energy block), so the two
mirror blocks are negatives of each other, not both equal to `2·D`. -/
theorem C3_block_mirror_amended (K : PolConsts) (gme : GmeData N Ng NC)
    (excs : Fin (Q + 1) → ExcitonData M Ng NC) :
    Fintype.card (HopIx N M Q) = 2 * (N + M * (Q + 1)) ∧
    (construct_Hopfield K gme excs).toBlocks₁₂.toBlocks₁₁ =
      (-2 : ℂ) • D_loop_leftover K gme excs ∧
    (construct_Hopfield K gme excs).toBlocks₂₁.toBlocks₁₁ =
      (2 : ℂ) • D_loop_leftover K gme excs ∧
    (construct_Hopfield K gme excs).toBlocks₁₂.toBlocks₁₁ =
      -(construct_Hopfield K gme excs).toBlocks₂₁.toBlocks₁₁ := by
  refine ⟨hop_card N M Q, hop_block_02 K gme excs, hop_block_20 K gme excs, ?_⟩
  rw [hop_block_02 K gme excs, hop_block_20 K gme excs, ← neg_smul]

/-- With zero oscillator strength the coupling block of a well vanishes. -/
theorem calcC_zero_osc (K : PolConsts) (a : ℝ) (gme : GmeData N Ng NC)
    (exc : ExcitonData M Ng NC) (h : ∀ i, exc.osc_str i = 0) :
    calcC K a gme exc = 0 := by
  ext n ν
  simp [calcC, h, Real.sqrt_zero]

/-- With zero oscillator strength the self-energy contribution vanishes. -/
theorem calcD_zero_osc (K : PolConsts) (a : ℝ) (gme : GmeData N Ng NC)
    (exc : ExcitonData M Ng NC) (h : ∀ i, exc.osc_str i = 0) :
    calcD K a gme exc = 0 := by
  have hC := calcC_zero_osc K a gme exc h
  ext n₁ n₂
  simp [calcD, calculate_C_D, hC]

/-- Concrete physical constants with `ħ²e²/(4·mₑ·ε₀) = 1` and conversion
factor `1`, so that the coupling prefactor is exactly `−i`. -/
noncomputable def Kc : PolConsts :=
  ⟨1, 1, 1, 1 / 4, 1, 1⟩

/-- Concrete photonic provider: one band of energy `2`, no losses, field
Fourier component `1`. -/
noncomputable def gmeC : GmeData 1 1 1 :=
  ⟨.none_, fun _ => 2, fun _ => 0, fun _ => 0, fun _ => 0, fun _ => 0,
    fun _ => 0, fun _ _ _ _ => 1⟩

/-- Concrete decoupled well: oscillator strength `0`, excitonic energy
`3/2`, lattice constant `1`. -/
noncomputable def excDec : ExcitonData 1 1 1 :=
  ⟨1, 0, fun _ => 0, fun _ => 3 / 2, fun _ _ => 1⟩

/-- Concrete coupled well: oscillator strength `1`, excitonic energy `1`,
lattice constant `1`, all Fourier components `1`. -/
noncomputable def excCpl : ExcitonData 1 1 1 :=
  ⟨1, 0, fun _ => 1, fun _ => 1, fun _ _ => 1⟩

/-- The coupled well of the decoupled-limit counterexamples, but with a
different lattice constant, to witness that non-first lattice constants are
ignored. -/
noncomputable def excDecA5 : ExcitonData 1 1 1 :=
  ⟨5, 0, fun _ => 0, fun _ => 3 / 2, fun _ _ => 1⟩

/-- Single coupled well. -/
noncomputable def excsCpl : Fin 1 → ExcitonData 1 1 1 := fun _ => excCpl

/-- Single decoupled well. -/
noncomputable def excsDec : Fin 1 → ExcitonData 1 1 1 := fun _ => excDec

/-- Two wells: a coupled first well, a decoupled last well. -/
noncomputable def excsTwo : Fin 2 → ExcitonData 1 1 1 := ![excCpl, excDec]

/-- Same two wells with the last well's lattice constant changed. -/
noncomputable def excsTwoA5 : Fin 2 → ExcitonData 1 1 1 := ![excCpl, excDecA5]

/-- The coupling prefactor at the concrete constants is `−i`. -/
theorem pref_Kc : pref Kc 1 = -Complex.I := by
  unfold pref Kc
  norm_num

/-- The concrete coupled well has coupling block constantly `−i`. -/
theorem calcC_excCpl : calcC Kc 1 gmeC excCpl = Matrix.of fun _ _ => -Complex.I := by
  ext n ν
  show pref Kc 1 * _ = _
  rw [pref_Kc]
  simp [calcC, excCpl, gmeC, Fin.sum_univ_one, Real.sqrt_one]

/-- The concrete coupled well has self-energy block constantly `1`. -/
theorem calcD_excCpl : calcD Kc 1 gmeC excCpl = Matrix.of fun _ _ => 1 := by
  ext n₁ n₂
  have hC := calcC_excCpl
  simp only [calcD, calculate_C_D, Matrix.of_apply, hC]
  simp [excCpl, Fin.sum_univ_one, Complex.ext_iff]

/-- C3 counterexample: for the concrete one-well configuration with
nonzero coupling, the block of the assembled matrix at `[0, 2N]` is `−2·D`,
not `2·D` as claimed — the two mirror blocks differ by a sign. -/
theorem C3_counterexample :
    (construct_Hopfield Kc gmeC excsCpl).toBlocks₁₂.toBlocks₁₁ ≠
      (2 : ℂ) • D_final_block Kc gmeC excsCpl := by
  rw [hop_block_02 Kc gmeC excsCpl]
  have hl : D_loop_leftover Kc gmeC excsCpl = Matrix.of fun _ _ => 1 :=
    calcD_excCpl
  have hf : D_final_block Kc gmeC excsCpl = Matrix.of fun _ _ => 1 := by
    show (∑ q : Fin 1, calcD Kc ((excsCpl 0).a) gmeC (excsCpl q)) = _
    rw [Fin.sum_univ_one]
    exact calcD_excCpl
  rw [hl, hf]
  intro h
  have h00 := congrFun (congrFun h 0) 0
  simp only [Matrix.smul_apply, Matrix.of_apply, smul_eq_mul] at h00
  norm_num at h00

/-- C1 failing-input evaluation: with two wells whose self-energy
contributions differ (first well coupled, last well decoupled), the code
places `-2` times the LAST well's contribution (here `0`) in the `[0, 2N]`
block, not `-2` times the summed self-energy block `D_final_block` that the
claim (and the spec's data model) prescribe. -/
theorem C1_last_well_D_divergence :
    (construct_Hopfield Kc gmeC excsTwo).toBlocks₁₂.toBlocks₁₁ = 0 ∧
    (construct_Hopfield Kc gmeC excsTwo).toBlocks₁₂.toBlocks₁₁ ≠
      (-2 : ℂ) • D_final_block Kc gmeC excsTwo := by
  have hlast : excsTwo (Fin.last 1) = excDec := rfl
  have hleft : D_loop_leftover Kc gmeC excsTwo = 0 := by
    show calcD Kc ((excsTwo 0).a) gmeC (excsTwo (Fin.last 1)) = 0
    rw [hlast]
    exact calcD_zero_osc Kc _ gmeC excDec fun _ => rfl
  have hblock : (construct_Hopfield Kc gmeC excsTwo).toBlocks₁₂.toBlocks₁₁ = 0 := by
    rw [hop_block_02 Kc gmeC excsTwo, hleft, smul_zero]
  have hf : D_final_block Kc gmeC excsTwo = Matrix.of fun _ _ => 1 := by
    show (∑ q : Fin 2, calcD Kc ((excsTwo 0).a) gmeC (excsTwo q)) = _
    rw [Fin.sum_univ_two]
    show calcD Kc 1 gmeC excCpl + calcD Kc 1 gmeC excDec = _
    rw [calcD_excCpl, calcD_zero_osc Kc 1 gmeC excDec fun _ => rfl]
    ext n₁ n₂
    simp
  refine ⟨hblock, ?_⟩
  rw [hblock, hf]
  intro h
  have h00 := congrFun (congrFun h.symm 0) 0
  simp only [Matrix.smul_apply, Matrix.of_apply, smul_eq_mul,
    Matrix.zero_apply] at h00
  norm_num at h00

/-- Closed instance of `C10_first_lattice_constant`: changing the second
well's lattice constant from `1` to `5` leaves the assembled Hopfield
matrix unchanged. -/
theorem C10_first_lattice_constant_witness :
    construct_Hopfield Kc gmeC excsTwo = construct_Hopfield Kc gmeC excsTwoA5 :=
  C10_first_lattice_constant Kc gmeC excsTwo excsTwoA5 rfl
    (by intro q; fin_cases q <;> rfl) (by intro q; fin_cases q <;> rfl)
    (by intro q; fin_cases q <;> rfl) (by intro q; fin_cases q <;> rfl)

section SpectralHelpers

variable {ι : Type*} [Fintype ι] [DecidableEq ι]

/-- Composing a monic complex polynomial with `X - C a` translates its root
multiset by `a`. -/
theorem roots_comp_X_sub_C_monic (p : ℂ[X]) (hp : p.Monic) (a : ℂ) :
    (p.comp (X - C a)).roots = p.roots.map fun r => r + a := by
  conv_lhs =>
    rw [eq_prod_roots_of_monic_of_splits_id hp (IsAlgClosed.splits_codomain p)]
  rw [multiset_prod_comp, Multiset.map_map]
  have hfun : ((fun q : ℂ[X] => q.comp (X - C a)) ∘ fun r : ℂ => X - C r) =
      (fun b : ℂ => (X : ℂ[X]) - C b) ∘ fun r : ℂ => r + a := by
    funext r
    simp only [Function.comp_apply, sub_comp, X_comp, C_comp, C_add]
    ring_nf
  rw [hfun, ← Multiset.map_map, roots_multiset_prod_X_sub_C]

/-- Composing a monic complex polynomial with `-X` negates its root
multiset. -/
theorem roots_comp_neg_X_monic (p : ℂ[X]) (hp : p.Monic) :
    (p.comp (-X)).roots = p.roots.map fun r => -r := by
  conv_lhs =>
    rw [eq_prod_roots_of_monic_of_splits_id hp (IsAlgClosed.splits_codomain p)]
  rw [multiset_prod_comp, Multiset.map_map]
  have hfun : ((fun q : ℂ[X] => q.comp (-X)) ∘ fun r : ℂ => X - C r) =
      fun r : ℂ => (-1 : ℂ[X]) * (X - C (-r)) := by
    funext r
    simp only [Function.comp_apply, sub_comp, X_comp, C_comp, map_neg]
    ring_nf
  rw [hfun, Multiset.prod_map_mul, Multiset.map_const', Multiset.prod_replicate]
  have hne : ((-1 : ℂ[X]) ^ Multiset.card p.roots) =
      C ((-1 : ℂ) ^ Multiset.card p.roots) := by
    rw [map_pow, map_neg, Polynomial.C_1]
  rw [hne, roots_C_mul _ (by simp : ((-1 : ℂ) ^ Multiset.card p.roots) ≠ 0)]
  have hfun2 : (fun r : ℂ => (X : ℂ[X]) - C (-r)) =
      (fun b : ℂ => (X : ℂ[X]) - C b) ∘ fun r : ℂ => -r := rfl
  rw [hfun2, ← Multiset.map_map, roots_multiset_prod_X_sub_C]

/-- The characteristic polynomial of `A + 1` is that of `A` composed with
`X - 1`. -/
theorem charpoly_add_one (A : Matrix ι ι ℂ) :
    (A + 1).charpoly = A.charpoly.comp (X - C 1) := by
  have hmap : (charmatrix A).map (eval₂RingHom (C : ℂ →+* ℂ[X]) (X - C 1)) =
      charmatrix (A + 1) := by
    ext i j
    by_cases h : i = j
    · subst h
      simp only [Matrix.map_apply, charmatrix_apply_eq, Matrix.add_apply,
        Matrix.one_apply_eq, coe_eval₂RingHom, eval₂_sub, eval₂_X, eval₂_C,
        C_add]
      ring_nf
    · simp only [Matrix.map_apply, charmatrix_apply_ne _ _ _ h,
        Matrix.add_apply, Matrix.one_apply_ne h, add_zero, coe_eval₂RingHom,
        eval₂_neg, eval₂_C]
  have hdet := RingHom.map_det (eval₂RingHom (C : ℂ →+* ℂ[X]) (X - C 1))
    (charmatrix A)
  rw [RingHom.mapMatrix_apply] at hdet
  unfold Matrix.charpoly
  rw [← hmap, ← hdet]
  rfl

/-- The characteristic polynomial of `-A` is `(-1)^n` times that of `A`
composed with `-X`. -/
theorem charpoly_neg_eq (A : Matrix ι ι ℂ) :
    (-A).charpoly =
      (-1 : ℂ[X]) ^ Fintype.card ι * A.charpoly.comp (-X) := by
  have hmap : (charmatrix A).map (eval₂RingHom (C : ℂ →+* ℂ[X]) (-X)) =
      -charmatrix (-A) := by
    ext i j
    by_cases h : i = j
    · subst h
      simp only [Matrix.map_apply, charmatrix_apply_eq, Matrix.neg_apply,
        coe_eval₂RingHom, eval₂_sub, eval₂_X, eval₂_C, map_neg]
      ring_nf
    · simp only [Matrix.map_apply, charmatrix_apply_ne _ _ _ h,
        Matrix.neg_apply, coe_eval₂RingHom, eval₂_neg, eval₂_C, map_neg,
        neg_neg]
  have hdet := RingHom.map_det (eval₂RingHom (C : ℂ →+* ℂ[X]) (-X))
    (charmatrix A)
  rw [RingHom.mapMatrix_apply] at hdet
  have hcomp : A.charpoly.comp (-X) = (-charmatrix (-A)).det := by
    unfold Matrix.charpoly
    rw [← hmap, ← hdet]
    rfl
  rw [Matrix.det_neg] at hcomp
  unfold Matrix.charpoly at hcomp ⊢
  rw [hcomp, ← mul_assoc, ← mul_pow]
  simp

/-- Negating a complex matrix negates its eigenvalue multiset. -/
theorem charpoly_roots_neg (A : Matrix ι ι ℂ) :
    (-A).charpoly.roots = A.charpoly.roots.map fun z => -z := by
  rw [charpoly_neg_eq A]
  have hne : ((-1 : ℂ[X]) ^ Fintype.card ι) =
      C ((-1 : ℂ) ^ Fintype.card ι) := by
    rw [map_pow, map_neg, Polynomial.C_1]
  rw [hne, roots_C_mul _ (by simp : ((-1 : ℂ) ^ Fintype.card ι) ≠ 0)]
  exact roots_comp_neg_X_monic A.charpoly (Matrix.charpoly_monic A)

/-- The eigenvalue multiset of `A + 1` is that of `A` shifted by `1`. -/
theorem charpoly_roots_add_one (A : Matrix ι ι ℂ) :
    (A + 1).charpoly.roots = A.charpoly.roots.map fun z => z + 1 := by
  rw [charpoly_add_one A]
  exact roots_comp_X_sub_C_monic A.charpoly (Matrix.charpoly_monic A) 1

/-- Conjugating by a matrix squaring to one preserves the characteristic
polynomial. -/
theorem charpoly_conj_involution (S A : Matrix ι ι ℂ) (hS : S * S = 1) :
    (S * A * S).charpoly = A.charpoly := by
  have hmapmul : (S.map (C : ℂ → ℂ[X])) * (S.map C) = 1 := by
    rw [← Matrix.map_mul, hS, ← Matrix.map_one (C : ℂ →+* ℂ[X]) C.map_zero C.map_one]
  have key : charmatrix (S * A * S) =
      (S.map (C : ℂ → ℂ[X])) * charmatrix A * (S.map C) := by
    unfold charmatrix
    rw [Matrix.mul_sub, Matrix.sub_mul]
    congr 1
    · rw [Matrix.scalar_apply, ← Matrix.smul_one_eq_diagonal, mul_smul_comm,
        smul_mul_assoc, mul_one, hmapmul]
    · simp only [RingHom.mapMatrix_apply]
      rw [← Matrix.map_mul, ← Matrix.map_mul]
  unfold Matrix.charpoly
  rw [key, Matrix.det_mul, Matrix.det_mul]
  have : (S.map (C : ℂ → ℂ[X])).det * (charmatrix A).det * (S.map C).det =
      ((S.map (C : ℂ → ℂ[X])).det * (S.map C).det) * (charmatrix A).det := by
    ring
  rw [this, ← Matrix.det_mul, hmapmul, Matrix.det_one, one_mul]

/-- The characteristic matrix of a diagonal matrix is diagonal. -/
theorem charmatrix_diagonal (d : ι → ℂ) :
    charmatrix (Matrix.diagonal d) =
      Matrix.diagonal fun i => (X : ℂ[X]) - C (d i) := by
  ext i j
  by_cases h : i = j
  · subst h
    simp
  · simp [charmatrix_apply_ne _ _ _ h, Matrix.diagonal_apply_ne _ h,
      Matrix.diagonal_apply_ne _ h]

/-- The characteristic polynomial of a diagonal matrix is the product of
the linear factors of its diagonal entries. -/
theorem charpoly_diagonal (d : ι → ℂ) :
    (Matrix.diagonal d).charpoly = ∏ i, ((X : ℂ[X]) - C (d i)) := by
  unfold Matrix.charpoly
  rw [charmatrix_diagonal, Matrix.det_diagonal]

/-- The eigenvalue multiset of a diagonal matrix is the multiset of its
diagonal entries. -/
theorem charpoly_diagonal_roots (d : ι → ℂ) :
    (Matrix.diagonal d).charpoly.roots = Finset.univ.val.map d := by
  rw [charpoly_diagonal]
  have h : (∏ i, ((X : ℂ[X]) - C (d i))) =
      ((Finset.univ.val.map d).map fun a => (X : ℂ[X]) - C a).prod := by
    rw [Multiset.map_map]
    rfl
  rw [h, roots_multiset_prod_X_sub_C]

end SpectralHelpers

section MirrorSymmetry

variable {m n : Type*} [Fintype m] [DecidableEq m] [Fintype n] [DecidableEq n]

/-- The block permutation-with-signs that exchanges the positive and the
mirrored branch of the Hopfield doubling: identity between the photon
halves, minus identity between the exciton halves. -/
def hopMirror : Matrix ((m ⊕ n) ⊕ (m ⊕ n)) ((m ⊕ n) ⊕ (m ⊕ n)) ℂ :=
  Matrix.fromBlocks 0 (Matrix.fromBlocks 1 0 0 (-1))
    (Matrix.fromBlocks 1 0 0 (-1)) 0

/-- The mirror is an involution. -/
theorem hopMirror_sq : (hopMirror (m := m) (n := n)) * hopMirror = 1 := by
  unfold hopMirror
  rw [Matrix.fromBlocks_multiply]
  simp [Matrix.fromBlocks_multiply, Matrix.fromBlocks_one]

/-- Conjugating the four-block Hopfield structure by the mirror negates
it: the assembled matrix is similar to its own negative, whatever the
blocks are. -/
theorem hopfieldShape_mirror (P : Matrix m m ℂ) (Ct : Matrix m n ℂ)
    (Ctd : Matrix n m ℂ) (X : Matrix n n ℂ) (Dl : Matrix m m ℂ) :
    hopMirror * hopfieldShape P Ct Ctd X Dl * hopMirror =
      -(hopfieldShape P Ct Ctd X Dl) := by
  unfold hopMirror hopfieldShape
  rw [Matrix.fromBlocks_multiply, Matrix.fromBlocks_multiply]
  simp [Matrix.fromBlocks_multiply, Matrix.fromBlocks_neg,
    Matrix.neg_mul, Matrix.mul_neg, Matrix.smul_mul, Matrix.mul_smul]

end MirrorSymmetry

/-- The assembled Hopfield matrix, written as the generic four-block
structure on its five blocks. -/
theorem construct_Hopfield_shape (K : PolConsts) (gme : GmeData N Ng NC)
    (excs : Fin (Q + 1) → ExcitonData M Ng NC) :
    construct_Hopfield K gme excs =
      hopfieldShape
        (Matrix.diagonal (barePhotE K ((excs 0).a) gme) +
          (2 : ℂ) • reMat (D_final_block K gme excs))
        (C_total K gme excs) (C_total K gme excs).conjTranspose
        (diag_exc_block excs) (D_loop_leftover K gme excs) :=
  rfl

/-- The characteristic polynomial of the assembled Hopfield matrix is
invariant under negation of the matrix (particle/anti-particle pairing). -/
theorem hop_charpoly_neg_invariant (K : PolConsts) (gme : GmeData N Ng NC)
    (excs : Fin (Q + 1) → ExcitonData M Ng NC) :
    (-(construct_Hopfield K gme excs)).charpoly =
      (construct_Hopfield K gme excs).charpoly := by
  rw [construct_Hopfield_shape K gme excs, ← hopfieldShape_mirror]
  exact charpoly_conj_involution _ _ hopMirror_sq

/-- The eigenvalue multiset of the assembled Hopfield matrix is closed
under negation: eigenvalues occur in a `+E`/`−E`-paired structure. -/
theorem hop_spectrum_neg_closed (K : PolConsts) (gme : GmeData N Ng NC)
    (excs : Fin (Q + 1) → ExcitonData M Ng NC) :
    (construct_Hopfield K gme excs).charpoly.roots.map (fun z => -z) =
      (construct_Hopfield K gme excs).charpoly.roots := by
  have h1 := charpoly_roots_neg (construct_Hopfield K gme excs)
  rw [hop_charpoly_neg_invariant K gme excs] at h1
  exact h1.symm

/-- C5: the identity shift applied before the eigendecomposition of `run`
(`bd.eig(mat + bd.eye(...))` followed by subtracting `bd.ones(...)`) is a
no-op on the recovered eigenvalue multiset — proved for every complex
matrix, degenerate or not, so in particular for every non-degenerate one. -/
theorem C5_shift_noop {ι : Type*} [Fintype ι] [DecidableEq ι]
    (A : Matrix ι ι ℂ) : eigShiftUnshift A = A.charpoly.roots := by
  unfold eigShiftUnshift
  rw [charpoly_roots_add_one A, Multiset.map_map]
  have h : ((fun z : ℂ => z - 1) ∘ fun z : ℂ => z + 1) = id := by
    funext z
    simp
  rw [h, Multiset.map_id]

/-- Diagonal entries of the assembled Hopfield matrix in the decoupled
(zero oscillator strength) limit: the bare photonic energies, the bare
excitonic energies, and their negatives. -/
noncomputable def hopDecoupledEntry (K : PolConsts) (gme : GmeData N Ng NC)
    (excs : Fin (Q + 1) → ExcitonData M Ng NC) : HopIx N M Q → ℂ :=
  Sum.elim
    (Sum.elim (barePhotE K ((excs 0).a) gme) fun qv => (excs qv.1).eners qv.2)
    (Sum.elim (fun nn => -barePhotE K ((excs 0).a) gme nn) fun qv =>
      -(excs qv.1).eners qv.2)

/-- With zero oscillator strength in every well the assembled Hopfield
matrix is diagonal, with the bare photonic and excitonic energies and
their negatives on the diagonal. -/
theorem construct_Hopfield_zero_osc (K : PolConsts) (gme : GmeData N Ng NC)
    (excs : Fin (Q + 1) → ExcitonData M Ng NC)
    (hosc : ∀ q i, (excs q).osc_str i = 0) :
    construct_Hopfield K gme excs =
      Matrix.diagonal (hopDecoupledEntry K gme excs) := by
  have hC : C_total K gme excs = 0 := by
    ext n qv
    have h := calcC_zero_osc K ((excs 0).a) gme (excs qv.1) (hosc qv.1)
    calc (C_total K gme excs) n qv
        = calcC K ((excs 0).a) gme (excs qv.1) n qv.2 := rfl
      _ = 0 := by rw [h]; rfl
  have hDf : D_final_block K gme excs = 0 := by
    unfold D_final_block
    rw [Finset.sum_eq_zero]
    intro q _
    exact calcD_zero_osc K _ gme (excs q) (hosc q)
  have hDl : D_loop_leftover K gme excs = 0 :=
    calcD_zero_osc K _ gme _ (hosc _)
  rw [construct_Hopfield_shape, hC, hDf, hDl]
  have hre : reMat (0 : Matrix (Fin N) (Fin N) ℂ) = 0 := by
    ext i j
    simp [reMat]
  rw [hre, smul_zero, add_zero]
  unfold hopfieldShape diag_exc_block hopDecoupledEntry
  rw [Matrix.conjTranspose_zero]
  simp only [smul_zero]
  rw [Matrix.diagonal_neg, Matrix.fromBlocks_zero, Matrix.fromBlocks_diagonal,
    Matrix.diagonal_neg, Matrix.fromBlocks_diagonal, Matrix.fromBlocks_diagonal]

/-- C7 amended: with zero oscillator strength in every quantum well the
coupling blocks `C` and the self-energy contributions `D` all vanish, and
the polariton spectrum decouples into the union of the bare photonic and
bare excitonic energies together with their negatives; the retained
`size/2 − 1` energies are drawn from this union — they include the retained
excitonic branches, not the bare photonic energies alone. -/
theorem C7_decoupled_amended (K : PolConsts) (gme : GmeData N Ng NC)
    (excs : Fin (Q + 1) → ExcitonData M Ng NC)
    (hosc : ∀ q i, (excs q).osc_str i = 0) :
    (∀ q, calcC K ((excs 0).a) gme (excs q) = 0) ∧
    (∀ q, calcD K ((excs 0).a) gme (excs q) = 0) ∧
    (construct_Hopfield K gme excs).charpoly.roots =
      Finset.univ.val.map (hopDecoupledEntry K gme excs) := by
  refine ⟨fun q => calcC_zero_osc K _ gme (excs q) (hosc q),
    fun q => calcD_zero_osc K _ gme (excs q) (hosc q), ?_⟩
  rw [construct_Hopfield_zero_osc K gme excs hosc, charpoly_diagonal_roots]

/-- Closed instance of `C7_decoupled_amended` at the concrete decoupled
configuration. -/
theorem C7_decoupled_witness :
    (∀ q, calcC Kc ((excsDec 0).a) gmeC (excsDec q) = 0) ∧
    (∀ q, calcD Kc ((excsDec 0).a) gmeC (excsDec q) = 0) ∧
    (construct_Hopfield Kc gmeC excsDec).charpoly.roots =
      Finset.univ.val.map (hopDecoupledEntry Kc gmeC excsDec) :=
  C7_decoupled_amended Kc gmeC excsDec fun _ _ => rfl

/-- The decoupled diagonal entries of the concrete configuration: photon
energy `2`, exciton energy `3/2`, and their negatives. -/
theorem hopDecoupledEntry_concrete :
    hopDecoupledEntry Kc gmeC excsDec =
      Sum.elim
        (Sum.elim (fun _ : Fin 1 => (((2 : ℝ) : ℂ)))
          (fun _ : Fin 1 × Fin 1 => (((3 / 2 : ℝ) : ℂ))))
        (Sum.elim (fun _ : Fin 1 => (((-2 : ℝ) : ℂ)))
          (fun _ : Fin 1 × Fin 1 => (((-(3 / 2) : ℝ) : ℂ)))) := by
  funext x
  cases x with
  | inl y =>
    cases y with
    | inl nn =>
      show barePhotE Kc excDec.a gmeC nn = _
      simp only [barePhotE, Kc, gmeC, excDec]
      push_cast
      norm_num
    | inr qv =>
      show (excDec.eners qv.2 : ℂ) = _
      simp [excDec]
  | inr y =>
    cases y with
    | inl nn =>
      show -barePhotE Kc excDec.a gmeC nn = _
      simp only [barePhotE, Kc, gmeC, excDec]
      push_cast
      norm_num
    | inr qv =>
      show -(excDec.eners qv.2 : ℂ) = _
      simp [excDec]

/-- The spectrum of the concrete decoupled Hopfield matrix, as an explicit
four-element multiset. -/
theorem hop_roots_dec_concrete :
    (construct_Hopfield Kc gmeC excsDec).charpoly.roots =
      (↑[(((2 : ℝ) : ℂ)), (((3 / 2 : ℝ) : ℂ)), (((-2 : ℝ) : ℂ)),
        (((-(3 / 2) : ℝ) : ℂ))] : Multiset ℂ) := by
  rw [construct_Hopfield_zero_osc Kc gmeC excsDec fun _ _ => rfl,
    charpoly_diagonal_roots, hopDecoupledEntry_concrete]
  rfl

/-- The all-zero eigenvector placeholder for concrete eigenvalue lists. -/
def v0 : ℕ → ℂ := fun _ => 0

/-- A concrete eigensolver output enumerating the spectrum of the concrete
decoupled Hopfield matrix. -/
noncomputable def esDec : List (ℂ × (ℕ → ℂ)) :=
  [(((2 : ℝ) : ℂ), v0), (((3 / 2 : ℝ) : ℂ), v0),
   (((-2 : ℝ) : ℂ), v0), (((-(3 / 2) : ℝ) : ℂ), v0)]

/-- Branch filter evaluation on the concrete decoupled spectrum: the two
negative-branch eigenvalues are dropped, the rest sorted ascending, and
`4/2 − 1 = 1` eigenpair retained — the excitonic one, `3/2`. -/
theorem branchRetain_dec : branchRetain 4 esDec = [(((3 / 2 : ℝ) : ℂ), v0)] := by
  unfold branchRetain esDec
  have hfilter : ([(((2 : ℝ) : ℂ), v0), (((3 / 2 : ℝ) : ℂ), v0),
      (((-2 : ℝ) : ℂ), v0), (((-(3 / 2) : ℝ) : ℂ), v0)].filter
        fun p => decide (0 ≤ p.1.re)) =
      [(((2 : ℝ) : ℂ), v0), (((3 / 2 : ℝ) : ℂ), v0)] := by
    norm_num [List.filter, Complex.ofReal_re]
  rw [hfilter]
  have hsort : (([(((2 : ℝ) : ℂ), v0), (((3 / 2 : ℝ) : ℂ), v0)]).insertionSort
      fun p q => cLe p.1 q.1) =
      [(((3 / 2 : ℝ) : ℂ), v0), (((2 : ℝ) : ℂ), v0)] := by
    simp only [List.insertionSort, List.orderedInsert]
    rw [if_neg]
    norm_num [cLe, Complex.ofReal_re]
  rw [hsort]
  rfl

/-- C7 counterexample: for the concrete decoupled configuration
(`N_max = 1`, zero oscillator strength, photon energy `2`, exciton energy
`3/2`), the eigensolver output `esDec` enumerates exactly the spectrum of
the assembled matrix, yet the retained polariton energies are `[3/2]` — an
excitonic branch — and NOT the bare photonic energies `[2]` the claim
demands. -/
theorem C7_counterexample :
    ((esDec.map Prod.fst : Multiset ℂ) =
      (construct_Hopfield Kc gmeC excsDec).charpoly.roots) ∧
    (runPerK 1 1 0 esDec).1 = [(3 / 2 : ℝ)] ∧
    (runPerK 1 1 0 esDec).1 ≠ [(2 : ℝ)] := by
  have hcard : Fintype.card (HopIx 1 1 0) = 4 := rfl
  have h2 : (runPerK 1 1 0 esDec).1 = [(3 / 2 : ℝ)] := by
    show ((branchRetain (Fintype.card (HopIx 1 1 0)) esDec).map
      fun p => p.1.re) = _
    rw [hcard, branchRetain_dec]
    simp
  refine ⟨?_, h2, ?_⟩
  · rw [hop_roots_dec_concrete]
    rfl
  · rw [h2]
    intro h
    have h1 : (3 / 2 : ℝ) = 2 := by
      injection h
    norm_num at h1

/-- In a real multiset closed under negation, at least half the elements
(rounded down) are nonnegative. -/
theorem countP_nonneg_of_neg_closed (s : Multiset ℝ)
    (hneg : s.map (fun x => -x) = s) :
    Multiset.card s / 2 ≤ Multiset.countP (fun x => 0 ≤ x) s := by
  have hsplit : Multiset.countP (fun x : ℝ => 0 ≤ x) s +
      Multiset.countP (fun x : ℝ => ¬0 ≤ x) s = Multiset.card s := by
    rw [Multiset.countP_eq_card_filter, Multiset.countP_eq_card_filter,
      ← Multiset.card_add, Multiset.filter_add_not]
  have heq1 : Multiset.countP (fun x : ℝ => ¬0 ≤ x) s =
      Multiset.countP (fun x : ℝ => 0 < x) s := by
    have e1 : Multiset.countP (fun x : ℝ => ¬0 ≤ x) s =
        Multiset.countP (fun x : ℝ => ¬0 ≤ x) (s.map fun x => -x) := by
      rw [hneg]
    rw [e1, Multiset.countP_map, Multiset.countP_eq_card_filter]
    congr 1
    apply Multiset.filter_congr
    intro x _
    simp [not_le, neg_lt_zero]
  have hmono : Multiset.countP (fun x : ℝ => 0 < x) s ≤
      Multiset.countP (fun x : ℝ => 0 ≤ x) s := by
    rw [Multiset.countP_eq_card_filter, Multiset.countP_eq_card_filter]
    exact Multiset.card_le_card
      (Multiset.monotone_filter_right s fun x hx => le_of_lt hx)
  omega

/-- Pipeline length: with an eigenvalue list of the full matrix size, of
which at least half pass the positive-branch filter, the retained list has
exactly `size/2 − 1` entries. -/
theorem branchRetain_length {V : Type*} (es : List (ℂ × V)) (size : ℕ)
    (hcount : size / 2 ≤ (es.filter fun p => decide (0 ≤ p.1.re)).length) :
    (branchRetain size es).length = size / 2 - 1 := by
  unfold branchRetain
  rw [List.length_take, List.length_insertionSort]
  omega

/-- C2: whenever the eigensolver output `es` enumerates the spectrum of the
assembled Hopfield matrix (which is what `bd.eig` returns), the retained
per-k-point energies, linewidths, eigenvector columns and both fraction
sequences all have exactly `size/2 − 1` entries, where
`size = 2·(N_max + M_max·num_QWs)` is the dimension of the matrix.  The
proof rests on the `+E`/`−E` pairing of the Hopfield spectrum, so the
positive-branch filter always keeps at least `size/2` eigenpairs. -/
theorem C2_retained_band_count (K : PolConsts) (gme : GmeData N Ng NC)
    (excs : Fin (Q + 1) → ExcitonData M Ng NC) (es : List (ℂ × (ℕ → ℂ)))
    (h : (↑(es.map Prod.fst) : Multiset ℂ) =
      (construct_Hopfield K gme excs).charpoly.roots) :
    (runPerK N M Q es).1.length = Fintype.card (HopIx N M Q) / 2 - 1 ∧
    (runPerK N M Q es).2.1.length = Fintype.card (HopIx N M Q) / 2 - 1 ∧
    (runPerK N M Q es).2.2.1.length = Fintype.card (HopIx N M Q) / 2 - 1 ∧
    (runPerK N M Q es).2.2.2.1.length = Fintype.card (HopIx N M Q) / 2 - 1 ∧
    (runPerK N M Q es).2.2.2.2.length = Fintype.card (HopIx N M Q) / 2 - 1 ∧
    Fintype.card (HopIx N M Q) = 2 * (N + M * (Q + 1)) := by
  have hlen : es.length = Fintype.card (HopIx N M Q) := by
    have hc := congrArg Multiset.card h
    rw [Multiset.coe_card, List.length_map] at hc
    rw [hc]
    have hsp := (Polynomial.splits_iff_card_roots).mp
      (IsAlgClosed.splits_codomain (construct_Hopfield K gme excs).charpoly)
    rw [hsp, Matrix.charpoly_natDegree_eq_dim]
  have hs : (↑(es.map fun p => p.1.re) : Multiset ℝ) =
      (construct_Hopfield K gme excs).charpoly.roots.map Complex.re := by
    have h1 : (es.map fun p => p.1.re) = (es.map Prod.fst).map Complex.re := by
      rw [List.map_map]
      rfl
    rw [h1, ← Multiset.map_coe, h]
  have hneg : ((construct_Hopfield K gme excs).charpoly.roots.map
        Complex.re).map (fun x => -x) =
      (construct_Hopfield K gme excs).charpoly.roots.map Complex.re := by
    rw [Multiset.map_map]
    have h2 : ((fun x : ℝ => -x) ∘ Complex.re) =
        Complex.re ∘ fun z : ℂ => -z := by
      funext z
      simp
    rw [h2, ← Multiset.map_map, hop_spectrum_neg_closed]
  have hclosed : (↑(es.map fun p => p.1.re) : Multiset ℝ).map (fun x => -x) =
      ↑(es.map fun p => p.1.re) := by
    rw [hs]
    exact hneg
  have hcount := countP_nonneg_of_neg_closed _ hclosed
  rw [Multiset.coe_card, List.length_map] at hcount
  have hfilt : Fintype.card (HopIx N M Q) / 2 ≤
      (es.filter fun p => decide (0 ≤ p.1.re)).length := by
    have e1 : Multiset.countP (fun x : ℝ => 0 ≤ x)
          (↑(es.map fun p => p.1.re) : Multiset ℝ) =
        (es.map fun p => p.1.re).countP fun x => decide (0 ≤ x) :=
      Multiset.coe_countP _ _
    have e2 : (es.map fun p => p.1.re).countP (fun x => decide (0 ≤ x)) =
        es.countP fun p => decide (0 ≤ p.1.re) := by
      rw [List.countP_map]
      rfl
    have e3 : es.countP (fun p => decide (0 ≤ p.1.re)) =
        (es.filter fun p => decide (0 ≤ p.1.re)).length :=
      List.countP_eq_length_filter _ _
    rw [e1, e2, e3] at hcount
    omega
  have hret := branchRetain_length es (Fintype.card (HopIx N M Q)) hfilt
  refine ⟨?_, ?_, ?_, ?_, ?_, hop_card N M Q⟩ <;>
    · show (List.map _ (branchRetain (Fintype.card (HopIx N M Q)) es)).length = _
      rw [List.length_map, hret]

/-- Closed instance of `C2_retained_band_count` at the concrete decoupled
configuration, whose spectrum is enumerated by `esDec`. -/
theorem C2_retained_band_count_witness :
    (runPerK 1 1 0 esDec).1.length = Fintype.card (HopIx 1 1 0) / 2 - 1 ∧
    (runPerK 1 1 0 esDec).2.1.length = Fintype.card (HopIx 1 1 0) / 2 - 1 ∧
    (runPerK 1 1 0 esDec).2.2.1.length = Fintype.card (HopIx 1 1 0) / 2 - 1 ∧
    (runPerK 1 1 0 esDec).2.2.2.1.length = Fintype.card (HopIx 1 1 0) / 2 - 1 ∧
    (runPerK 1 1 0 esDec).2.2.2.2.length = Fintype.card (HopIx 1 1 0) / 2 - 1 ∧
    Fintype.card (HopIx 1 1 0) = 2 * (1 + 1 * (0 + 1)) :=
  C2_retained_band_count Kc gmeC excsDec esDec
    (by rw [hop_roots_dec_concrete]; rfl)

end LegumePol
